import Mathlib

/-!
# Verification of the handwritten-notes transcription pipeline

Shallow embedding of the core logic of `src/main.py`:
the per-page transcription dispatcher (`process_file`), the result aggregator
(the `"\n\n".join` fan-in), the format converter (`md_to_latex` and the
LaTeX-only post-processing branch), the character-frequency analyzer
(`generate_character_frequency`), and the download filename/mime mapping.

External collaborators (the Gemini model call, pypandoc, PyMuPDF) are modelled
as function parameters; Python exceptions are modelled as `Except` values.
The `ThreadPoolExecutor` fan-out/fan-in is modelled by an explicit completion
order: each submitted future eventually stores the outcome for its own page
index, in an arbitrary order `order`; the `with` block joins the pool, so by
the time results are consumed every index has been stored.  Consumption
(`[task.result() for task in tasks.values()]`) walks the `tasks` dict in
insertion-key order `0, 1, …, n-1` and re-raises the first stored exception.
-/

namespace HandwrittenNotes

/-- A rasterized page image (the PNG bytes produced by `pdf_to_images`). -/
abbrev ImageData := List Nat

/-- The `image_parts` dictionaries built in `process_file`:
`{"mime_type": "image/png", "data": image_data}`. -/
structure ImagePart where
  mime_type : String
  data : ImageData
deriving DecidableEq, Repr

/-- Python exceptions that can propagate out of the per-page transcription:
an error raised inside the external model call, or an `IndexError` from
`image[0]` on an empty list (never reachable from `process_file`, which always
passes a singleton list). -/
inductive PipelineError where
  | transcription (msg : String) : PipelineError
  | indexError : PipelineError
deriving DecidableEq, Repr

/-- `get_gemini_response` (src/main.py lines 24-26): calls the external model
with the prompt and `image[0]`.  The external `model.generate_content` is the
parameter `model_generate`. -/
def get_gemini_response (model_generate : String → ImagePart → Except PipelineError String)
    (input : String) (image : List ImagePart) : Except PipelineError String :=
  match image with
  | [] => Except.error PipelineError.indexError
  | part :: _ => model_generate input part

/-- `get_custom_prompt` (src/main.py lines 51-56): fixed instruction plus the
format-name suffix. -/
def get_custom_prompt (format : String) : String :=
  "You have to transcribe the handwritten notes in the image. The output should be structured with titles, chapters, paragraphs, and subparagraphs in the specified format."
    ++ " Format: " ++ format ++ "."

/-- The fixed LaTeX preamble string of `md_to_latex` (src/main.py lines 38-47). -/
def latex_preamble : String :=
  "\\documentclass[a4paper]\x7barticle\x7d\n\\usepackage[utf8]\x7binputenc\x7d\n\\usepackage\x7bgeometry\x7d\n\\geometry\x7bmargin=1in\x7d\n\\title\x7bDigitalized Notes\x7d\n\\author\x7b\x7d\n\\date\x7b\\today\x7d\n\\begin\x7bdocument\x7d\n\\maketitle\n"

/-- `md_to_latex` (src/main.py lines 37-49): fixed preamble, then the body
produced by the external `pypandoc.convert_text` (parameter `convert_text`),
then the fixed end-document postamble. -/
def md_to_latex (convert_text : String → String) (md_content : String) : String :=
  latex_preamble ++ convert_text md_content ++ "\\end\x7bdocument\x7d"

/-- `"\n\n".join(...)` at src/main.py line 71: the result aggregator. -/
def aggregate (texts : List String) : String :=
  String.intercalate "\n\n" texts

/-- The LaTeX-only post-processing at src/main.py lines 73-74: the aggregated
output is replaced by `md_to_latex` exactly when the selected format is
`"LaTeX"`, otherwise left unchanged. -/
def apply_format_conversion (convert_text : String → String) (format_selected : String)
    (output : String) : String :=
  if format_selected = "LaTeX" then md_to_latex convert_text output else output

/-- The `file_name` argument of `st.download_button` (src/main.py line 225). -/
def download_file_name (format_selected : String) : String :=
  if format_selected = "Plain Text" then "converted_notes.txt"
  else if format_selected = "Markdown" then "converted_notes.md"
  else "converted_notes.tex"

/-- The `mime` argument of `st.download_button` (src/main.py line 226). -/
def download_mime (format_selected : String) : String :=
  if format_selected = "Plain Text" then "text/plain"
  else if format_selected = "Markdown" then "text/markdown"
  else "application/x-tex"

/-! ## Helper lemmas about `String.intercalate` -/

theorem intercalate_go_append (x y s : String) (l : List String) :
    String.intercalate.go (x ++ y) s l = x ++ String.intercalate.go y s l := by
  induction l generalizing y with
  | nil => rfl
  | cons a as ih =>
    show String.intercalate.go (x ++ y ++ s ++ a) s as = x ++ String.intercalate.go (y ++ s ++ a) s as
    rw [String.append_assoc x y s, String.append_assoc x (y ++ s) a]
    exact ih ((y ++ s) ++ a)

/-! ## Claim theorems: aggregation and formatting -/

/-- C3: `aggregate` of the empty sequence is the empty string, `aggregate` of a
single text is that text, and `aggregate` of two or more texts is the head,
a blank line, then the aggregate of the rest — i.e. the texts concatenated in
index order with a blank-line separator between consecutive pages. -/
theorem aggregate_blank_line_join :
    aggregate [] = "" ∧ (∀ t, aggregate [t] = t) ∧
    ∀ t ts, ts ≠ [] → aggregate (t :: ts) = t ++ "\n\n" ++ aggregate ts := by
  refine ⟨rfl, fun t => rfl, fun t ts hts => ?_⟩
  match ts, hts with
  | u :: us, _ =>
    show String.intercalate.go t "\n\n" (u :: us) = t ++ "\n\n" ++ String.intercalate.go u "\n\n" us
    show String.intercalate.go (t ++ "\n\n" ++ u) "\n\n" us = _
    exact intercalate_go_append (t ++ "\n\n") u "\n\n" us

/-- Witness for C3 at concrete inputs. -/
theorem aggregate_blank_line_join_witness :
    (["page1"] : List String) ≠ [] ∧
    aggregate ["page0", "page1"] = "page0" ++ "\n\n" ++ aggregate ["page1"] :=
  ⟨by decide, aggregate_blank_line_join.2.2 "page0" ["page1"] (by decide)⟩

/-- C6: `md_to_latex` output is exactly the fixed preamble (document class,
margins, title, author, date, begin-document), then the externally generated
body `convert_text md_content`, then the fixed end-document postamble; only the
body segment depends on the external transform. -/
theorem md_to_latex_fixed_template (convert_text : String → String) (md_content : String) :
    md_to_latex convert_text md_content
      = "\\documentclass[a4paper]\x7barticle\x7d\n\\usepackage[utf8]\x7binputenc\x7d\n\\usepackage\x7bgeometry\x7d\n\\geometry\x7bmargin=1in\x7d\n\\title\x7bDigitalized Notes\x7d\n\\author\x7b\x7d\n\\date\x7b\\today\x7d\n\\begin\x7bdocument\x7d\n\\maketitle\n"
        ++ convert_text md_content ++ "\\end\x7bdocument\x7d" :=
  rfl

/-- C7: with the `"Plain Text"` and `"Markdown"` format selections the
post-processing step is the identity: the aggregated text is returned
unchanged, for every external converter. -/
theorem plain_text_and_markdown_conversion_identity
    (convert_text : String → String) (text : String) :
    apply_format_conversion convert_text "Plain Text" text = text ∧
    apply_format_conversion convert_text "Markdown" text = text := by
  constructor <;> (unfold apply_format_conversion; rw [if_neg (by decide)])

/-- C8: the download filename and mime type are determined by the format
selection: Plain Text → `.txt`/`text/plain`, Markdown → `.md`/`text/markdown`,
LaTeX (typeset markup) → `.tex`/`application/x-tex`. -/
theorem download_filename_mime_mapping :
    download_file_name "Plain Text" = "converted_notes.txt"
    ∧ download_mime "Plain Text" = "text/plain"
    ∧ download_file_name "Markdown" = "converted_notes.md"
    ∧ download_mime "Markdown" = "text/markdown"
    ∧ download_file_name "LaTeX" = "converted_notes.tex"
    ∧ download_mime "LaTeX" = "application/x-tex" :=
  ⟨rfl, rfl, rfl, rfl, rfl, rfl⟩

/-! ## The transcription dispatcher (`process_file`, src/main.py lines 58-74)

`process_file` submits one future per page into a `ThreadPoolExecutor`,
recording it in the dict `tasks` under key `i` (insertion order `0,…,n-1`).
Leaving the `with` block joins the pool, so every future has completed before
results are consumed.  We model the nondeterministic completion timing by a
list `order` of page indices: the futures complete in that order, each storing
the outcome for its own index; a run in which every future completed is one
whose `order` covers (is a permutation of) `0,…,n-1`. -/

/-- `max_workers` (src/main.py line 17): the worker-pool bound. -/
def max_workers : Nat := 10

/-- The outcome captured by the future submitted for page `i`:
`get_gemini_response(prompt, [{"mime_type": "image/png", "data": images[i]}])`
(src/main.py lines 66-70).  Out-of-range indices (no such future) are modelled
by an `IndexError`. -/
def futureOutcome (model_generate : String → ImagePart → Except PipelineError String)
    (prompt : String) (images : List ImageData) (i : Nat) : Except PipelineError String :=
  match images[i]? with
  | some image_data =>
      get_gemini_response model_generate prompt [ImagePart.mk "image/png" image_data]
  | none => Except.error PipelineError.indexError

/-- The per-index result store after the futures complete in the order `order`:
the future for index `k` writes `outcome k` into its own slot; a slot never
written stays `none`. -/
def fillResults (outcome : Nat → Except PipelineError String) (order : List Nat) :
    Nat → Option (Except PipelineError String) :=
  order.foldl (fun store k => fun j => if j = k then some (outcome k) else store j)
    (fun _ => none)

/-- The `tasks` dict read back after the pool join, in insertion-key order
`0,…,n-1`: each entry pairs the page index with its completed future's stored
outcome.  `none` means some future never completed (impossible once the `with`
block has joined the pool, i.e. when `order` covers every index). -/
def completedTasks (outcome : Nat → Except PipelineError String) (n : Nat)
    (order : List Nat) : Option (List (Nat × Except PipelineError String)) :=
  (List.range n).mapM (fun i => (fillResults outcome order i).map (fun r => (i, r)))

/-- `[task.result() for task in tasks.values()]` (src/main.py line 71):
consume the stored outcomes left to right, re-raising the first stored
exception. -/
def consumeResults : List (Except PipelineError String) → Except PipelineError (List String)
  | [] => Except.ok []
  | Except.error e :: _ => Except.error e
  | Except.ok t :: rs =>
    match consumeResults rs with
    | Except.error e => Except.error e
    | Except.ok ts => Except.ok (t :: ts)

/-- The dispatcher: fan out one future per page, let them complete in `order`,
join, then consume the results in page-index order. -/
def dispatch (outcome : Nat → Except PipelineError String) (n : Nat) (order : List Nat) :
    Option (Except PipelineError (List String)) :=
  (completedTasks outcome n order).map (fun ts => consumeResults (ts.map Prod.snd))

/-- The Streamlit session state fields touched by `process_file`. -/
structure SessionState where
  plain_text_convert : Bool
  markdown_convert : Bool
  latex_convert : Bool
  images : List ImageData
  output : String
  format_selected : String
deriving DecidableEq, Repr

/-- The format selection at src/main.py lines 59-63. -/
def selected_format (s : SessionState) : String :=
  if s.plain_text_convert then "Plain Text"
  else if s.markdown_convert then "Markdown"
  else "LaTeX"

/-- `process_file` (src/main.py lines 58-74): set `format_selected`, dispatch
one transcription future per page, join the results in page-index order into
`output`, then apply the LaTeX-only post-processing.  A raised
`TranscriptionError` propagates (second component `some e`) and leaves
`output` untouched; `format_selected` was already mutated before the failure,
as in the source. -/
def process_file (model_generate : String → ImagePart → Except PipelineError String)
    (convert_text : String → String) (order : List Nat) (s : SessionState) :
    Option (SessionState × Option PipelineError) :=
  (dispatch (futureOutcome model_generate (get_custom_prompt (selected_format s)) s.images)
      s.images.length order).map
    (fun r =>
      match r with
      | Except.error e => ({ s with format_selected := selected_format s }, some e)
      | Except.ok texts =>
        ({ s with
            format_selected := selected_format s,
            output := apply_format_conversion convert_text (selected_format s)
                        (aggregate texts) }, none))

/-! ## Dispatcher lemmas -/

theorem fillResults_mem (outcome : Nat → Except PipelineError String) (order : List Nat)
    (i : Nat) :
    fillResults outcome order i = if i ∈ order then some (outcome i) else none := by
  suffices h : ∀ store : Nat → Option (Except PipelineError String),
      order.foldl (fun st k => fun j => if j = k then some (outcome k) else st j) store i
        = if i ∈ order then some (outcome i) else store i from h _
  induction order with
  | nil => intro store; simp
  | cons k rest ih =>
    intro store
    rw [List.foldl_cons, ih]
    by_cases hmem : i ∈ rest
    · simp [hmem]
    · by_cases hik : i = k
      · subst hik; simp [hmem]
      · simp [hmem, hik]

theorem mapM_option_eq_map {α β : Type} (f : α → Option β) (g : α → β) :
    ∀ l : List α, (∀ a ∈ l, f a = some (g a)) → l.mapM f = some (l.map g) := by
  intro l
  induction l with
  | nil => intro _; rfl
  | cons a as ih =>
    intro h
    rw [List.mapM_cons, h a (List.mem_cons_self a as),
      ih (fun b hb => h b (List.mem_cons_of_mem a hb))]
    rfl

theorem completedTasks_covers (outcome : Nat → Except PipelineError String) (n : Nat)
    (order : List Nat) (h : ∀ i, i < n → i ∈ order) :
    completedTasks outcome n order
      = some ((List.range n).map (fun i => (i, outcome i))) := by
  unfold completedTasks
  apply mapM_option_eq_map
  intro i hi
  rw [fillResults_mem, if_pos (h i (List.mem_range.mp hi))]
  rfl

theorem dispatch_eq_of_covers (outcome : Nat → Except PipelineError String) (n : Nat)
    (order : List Nat) (h : ∀ i, i < n → i ∈ order) :
    dispatch outcome n order = some (consumeResults ((List.range n).map outcome)) := by
  unfold dispatch
  rw [completedTasks_covers outcome n order h]
  show some (consumeResults (((List.range n).map fun i => (i, outcome i)).map Prod.snd)) = _
  rw [List.map_map]
  rfl

theorem consumeResults_ok_elim (rs : List (Except PipelineError String)) (ts : List String)
    (h : consumeResults rs = Except.ok ts) : rs = ts.map Except.ok := by
  induction rs generalizing ts with
  | nil =>
    cases ts with
    | nil => rfl
    | cons t ts' => exact absurd h (by simp [consumeResults])
  | cons r rest ih =>
    cases r with
    | error e => exact absurd h (by simp [consumeResults])
    | ok t =>
      cases hrest : consumeResults rest with
      | error e =>
        refine absurd h ?_
        show consumeResults (Except.ok t :: rest) ≠ Except.ok ts
        simp [consumeResults, hrest]
      | ok ts' =>
        have hcons : consumeResults (Except.ok t :: rest) = Except.ok (t :: ts') := by
          show (match consumeResults rest with
                | Except.error e => Except.error e
                | Except.ok ts => Except.ok (t :: ts)) = Except.ok (t :: ts')
          rw [hrest]
        rw [hcons] at h
        injection h with h2
        subst h2
        rw [List.map_cons, ih ts' hrest]

theorem consumeResults_first_error (rs : List (Except PipelineError String)) (j : Nat)
    (e : PipelineError) (hje : rs[j]? = some (Except.error e))
    (hfirst : ∀ i, i < j → ∃ t, rs[i]? = some (Except.ok t)) :
    consumeResults rs = Except.error e := by
  induction rs generalizing j with
  | nil => simp at hje
  | cons r rest ih =>
    cases j with
    | zero =>
      rw [List.getElem?_cons_zero] at hje
      obtain rfl : r = Except.error e := by injection hje
      rfl
    | succ j' =>
      obtain ⟨t, ht⟩ := hfirst 0 (Nat.succ_pos j')
      rw [List.getElem?_cons_zero] at ht
      obtain rfl : r = Except.ok t := by injection ht
      have hrest : consumeResults rest = Except.error e := by
        refine ih j' ?_ ?_
        · rw [List.getElem?_cons_succ] at hje; exact hje
        · intro i hi
          obtain ⟨u, hu⟩ := hfirst (i + 1) (Nat.succ_lt_succ hi)
          rw [List.getElem?_cons_succ] at hu
          exact ⟨u, hu⟩
      show (match consumeResults rest with
            | Except.error e => Except.error e
            | Except.ok ts => Except.ok (t :: ts)) = Except.error e
      rw [hrest]

/-! ## Claim theorems: the dispatcher -/

/-- C1: for every permutation `order` of per-page completion timing, `dispatch`
returns exactly the index-ordered consumption of the per-page outcomes — the
right-hand side does not mention `order` — and whenever that run succeeds the
returned sequence has entry `i` equal to the transcription of page `i`, i.e.
the results are sorted strictly by page index ascending. -/
theorem dispatch_results_sorted_by_page_index
    (model_generate : String → ImagePart → Except PipelineError String)
    (prompt : String) (images : List ImageData) (order : List Nat)
    (h : order.Perm (List.range images.length)) :
    dispatch (futureOutcome model_generate prompt images) images.length order
      = some (consumeResults ((List.range images.length).map
          (futureOutcome model_generate prompt images))) ∧
    ∀ texts,
      consumeResults ((List.range images.length).map
          (futureOutcome model_generate prompt images)) = Except.ok texts →
      texts.length = images.length ∧
      ∀ i, i < images.length → ∃ t, texts[i]? = some t ∧
        futureOutcome model_generate prompt images i = Except.ok t := by
  have hcov : ∀ i, i < images.length → i ∈ order := fun i hi =>
    h.mem_iff.mpr (List.mem_range.mpr hi)
  refine ⟨dispatch_eq_of_covers _ _ _ hcov, fun texts htexts => ?_⟩
  have hmap := consumeResults_ok_elim _ _ htexts
  have hlen : texts.length = images.length := by
    have := congrArg List.length hmap
    simpa using this.symm
  refine ⟨hlen, fun i hi => ?_⟩
  have hi' : i < texts.length := hlen ▸ hi
  have hsome : texts[i]? = some (texts.get ⟨i, hi'⟩) := List.getElem?_eq_getElem hi'
  have hget := congrArg (fun l => l[i]?) hmap
  simp only [List.getElem?_map, List.getElem?_range hi, Option.map_some', hsome] at hget
  exact ⟨texts.get ⟨i, hi'⟩, hsome, Option.some_injective _ hget⟩

/-- Witness for C1: three pages completing in the order 2, 0, 1. -/
theorem dispatch_results_sorted_by_page_index_witness :
    ([2, 0, 1] : List Nat).Perm (List.range ([[0], [1], [2]] : List ImageData).length) ∧
    dispatch
        (futureOutcome (fun _ part => Except.ok (toString part.data.length)) "p"
          [[0], [1], [2]])
        ([[0], [1], [2]] : List ImageData).length [2, 0, 1]
      = some (consumeResults
          ((List.range ([[0], [1], [2]] : List ImageData).length).map
            (futureOutcome (fun _ part => Except.ok (toString part.data.length)) "p"
              [[0], [1], [2]]))) :=
  ⟨by decide,
    (dispatch_results_sorted_by_page_index (fun _ part => Except.ok (toString part.data.length))
      "p" [[0], [1], [2]] [2, 0, 1] (by decide)).1⟩

/-- C5: on every run whose completion order is a permutation of the page
indices, the dispatcher's joined task list carries exactly the indices
`0,…,pageCount-1`, each exactly once, regardless of the completion order. -/
theorem dispatcher_result_indices_exactly_range
    (model_generate : String → ImagePart → Except PipelineError String)
    (prompt : String) (images : List ImageData) (order : List Nat)
    (h : order.Perm (List.range images.length)) :
    ∃ ts, completedTasks (futureOutcome model_generate prompt images) images.length order
        = some ts
      ∧ ts.map Prod.fst = List.range images.length
      ∧ (ts.map Prod.fst).Nodup
      ∧ ∀ i, i < images.length → (ts.map Prod.fst).count i = 1 := by
  have hcov : ∀ i, i < images.length → i ∈ order := fun i hi =>
    h.mem_iff.mpr (List.mem_range.mpr hi)
  have hkeys : ((List.range images.length).map
      (fun i => (i, futureOutcome model_generate prompt images i))).map Prod.fst
      = List.range images.length := by
    rw [List.map_map]
    exact List.map_id _
  refine ⟨_, completedTasks_covers _ _ _ hcov, hkeys, ?_, ?_⟩
  · rw [hkeys]; exact List.nodup_range _
  · intro i hi
    rw [hkeys]
    exact List.count_eq_one_of_mem (List.nodup_range _) (List.mem_range.mpr hi)

/-- Witness for C5 at three pages completing in the order 1, 2, 0. -/
theorem dispatcher_result_indices_exactly_range_witness :
    ∃ ts, completedTasks (futureOutcome (fun _ _ => Except.ok "t") "p" [[5], [6], [7]])
        ([[5], [6], [7]] : List ImageData).length [1, 2, 0]
      = some ts
      ∧ ts.map Prod.fst = List.range ([[5], [6], [7]] : List ImageData).length
      ∧ (ts.map Prod.fst).Nodup
      ∧ ∀ i, i < ([[5], [6], [7]] : List ImageData).length → (ts.map Prod.fst).count i = 1 :=
  dispatcher_result_indices_exactly_range (fun _ _ => Except.ok "t") "p" [[5], [6], [7]]
    [1, 2, 0] (by decide)

/-- C2: if page `j` is the first page (in index order) whose transcription
raises, `process_file` fails with exactly that error: it returns the first
error in page-index order, produces no aggregated document, applies no format
conversion, and leaves the stored `output` unchanged (only `format_selected`,
mutated before dispatch, differs from the input state). -/
theorem process_file_fail_fast_first_error
    (model_generate : String → ImagePart → Except PipelineError String)
    (convert_text : String → String) (order : List Nat) (s : SessionState)
    (h : order.Perm (List.range s.images.length))
    (j : Nat) (e : PipelineError) (hj : j < s.images.length)
    (hje : futureOutcome model_generate (get_custom_prompt (selected_format s)) s.images j
            = Except.error e)
    (hfirst : ∀ i, i < j →
      ∃ t, futureOutcome model_generate (get_custom_prompt (selected_format s)) s.images i
            = Except.ok t) :
    process_file model_generate convert_text order s
      = some ({ s with format_selected := selected_format s }, some e) := by
  have hcov : ∀ i, i < s.images.length → i ∈ order := fun i hi =>
    h.mem_iff.mpr (List.mem_range.mpr hi)
  have hfail : consumeResults ((List.range s.images.length).map
      (futureOutcome model_generate (get_custom_prompt (selected_format s)) s.images))
      = Except.error e := by
    refine consumeResults_first_error _ j e ?_ ?_
    · rw [List.getElem?_map, List.getElem?_range hj, Option.map_some', hje]
    · intro i hi
      obtain ⟨t, ht⟩ := hfirst i hi
      refine ⟨t, ?_⟩
      rw [List.getElem?_map, List.getElem?_range (Nat.lt_trans hi hj), Option.map_some', ht]
  unfold process_file
  rw [dispatch_eq_of_covers _ _ _ hcov, Option.map_some', hfail]

/-- Witness for C2: three pages, page 1 raising; the stored output `"old"` is
unchanged in the returned state. -/
theorem process_file_fail_fast_first_error_witness :
    process_file
        (fun _ part =>
          if part.data = ([1] : List Nat) then
            Except.error (PipelineError.transcription "boom")
          else Except.ok "t")
        (fun t => t) [2, 0, 1]
        ⟨true, false, false, [[0], [1], [2]], "old", ""⟩
      = some (⟨true, false, false, [[0], [1], [2]], "old", "Plain Text"⟩,
          some (PipelineError.transcription "boom")) :=
  process_file_fail_fast_first_error
    (fun _ part =>
      if part.data = ([1] : List Nat) then
        Except.error (PipelineError.transcription "boom")
      else Except.ok "t")
    (fun t => t) [2, 0, 1] ⟨true, false, false, [[0], [1], [2]], "old", ""⟩
    (by decide) 1 (PipelineError.transcription "boom") (by decide) rfl
    (fun i hi =>
      match i, hi with
      | 0, _ => ⟨"t", rfl⟩
      | i + 1, hi => absurd hi (by omega))

/-! ## The frequency analyzer (`generate_character_frequency`, src/main.py lines 76-82)

The Python loop builds a dict counting alphanumeric characters (Python dicts
preserve insertion order: a fresh key is appended, an existing key keeps its
position and its value is bumped), then sorts the resulting frame with
`df.sort_values(by='Frequency', ascending=False)`.  pandas `nargsort` computes
the ascending argsort of the column and, for `ascending=False`, reverses that
permutation; on frames of fewer than 16 rows numpy's default sort is insertion
sort, which is stable.  We therefore model the sort as a stable ascending
insertion sort by count followed by `reverse`.  Python's Unicode `str.isalnum`
is modelled by `Char.isAlphanum`. -/

/-- One iteration of the counting loop:
`frequency[char] = frequency.get(char, 0) + 1`. -/
def bumpKey : List (Char × Nat) → Char → List (Char × Nat)
  | [], c => [(c, 1)]
  | (k, v) :: rest, c =>
    if k = c then (k, v + 1) :: rest else (k, v) :: bumpKey rest c

/-- The loop body at src/main.py lines 78-80: count `c` if it is
alphanumeric, otherwise leave the dict unchanged. -/
def countStep (freq : List (Char × Nat)) (c : Char) : List (Char × Nat) :=
  if c.isAlphanum then bumpKey freq c else freq

/-- The frequency dict after the counting loop, as an insertion-ordered
association list. -/
def buildFrequency (text : List Char) : List (Char × Nat) :=
  text.foldl countStep []

/-- The ascending comparison on the `Frequency` column. -/
def countLE (x y : Char × Nat) : Bool := x.2 ≤ y.2

/-- Stable insertion into an ascending-by-count list: a new element is placed
before the first element it compares `≤` to, so among equal counts the
earlier-inserted entry stays earlier. -/
def insertByCount (x : Char × Nat) : List (Char × Nat) → List (Char × Nat)
  | [] => [x]
  | y :: ys => if countLE x y then x :: y :: ys else y :: insertByCount x ys

/-- Stable ascending-by-count insertion sort (the stable ascending argsort
performed by pandas `nargsort` on the `Frequency` column). -/
def sortByCount : List (Char × Nat) → List (Char × Nat)
  | [] => []
  | x :: xs => insertByCount x (sortByCount xs)

/-- `generate_character_frequency` (src/main.py lines 76-82): count the
alphanumeric characters in insertion order, then return the rows sorted by
count descending — pandas `sort_values(ascending=False)`, i.e. the reverse of
the ascending argsort.  The ascending argsort is modelled as a stable sort;
numpy's default introsort is genuinely stable (it degenerates to insertion
sort) only for arrays below its ~16-element cutoff, so the modelled tie order
is faithful only for tables with fewer than 16 distinct counted characters —
theorems about tie order therefore carry that size hypothesis, while
permutation-invariant consequences (key set, counts, sums) and the descending
sortedness hold for the program at every size. -/
def generate_character_frequency (text : String) : List (Char × Nat) :=
  (sortByCount (buildFrequency text.toList)).reverse

/-- The number of alphanumeric occurrences of `c` in `text`. -/
def alnumCount (text : List Char) (c : Char) : Nat :=
  (text.filter (fun d => d.isAlphanum)).count c

/-- Position of the first occurrence of `c` in `text`. -/
def firstIndex (text : List Char) (c : Char) : Nat :=
  text.findIdx (fun d => d = c)

/-- Total count stored for key `c` in an association list (sums over duplicate
keys, so it is well defined without a nodup assumption). -/
def countOf (freq : List (Char × Nat)) (c : Char) : Nat :=
  ((freq.filter (fun p => p.1 = c)).map Prod.snd).sum

/-- The alphanumeric characters of a text not in `ex`, listed in order of
first occurrence — the key order of the insertion-ordered frequency dict. -/
def firstOccsExcept (ex : List Char) : List Char → List Char
  | [] => []
  | c :: cs =>
    if c.isAlphanum ∧ c ∉ ex then c :: (firstOccsExcept ex cs).filter (fun d => d ≠ c)
    else firstOccsExcept ex cs

/-! ## Lemmas about the counting loop -/

theorem countOf_cons (k : Char) (v : Nat) (rest : List (Char × Nat)) (c : Char) :
    countOf ((k, v) :: rest) c = (if k = c then v else 0) + countOf rest c := by
  by_cases h : k = c <;> simp [countOf, List.filter_cons, h]

theorem countOf_bumpKey_same (freq : List (Char × Nat)) (c : Char) :
    countOf (bumpKey freq c) c = countOf freq c + 1 := by
  induction freq with
  | nil => simp [bumpKey, countOf]
  | cons p rest ih =>
    obtain ⟨k, v⟩ := p
    by_cases h : k = c
    · subst h
      simp only [bumpKey, eq_self_iff_true, if_true]
      rw [countOf_cons, countOf_cons]
      simp only [eq_self_iff_true, if_true]
      omega
    · simp only [bumpKey, if_neg h]
      rw [countOf_cons, countOf_cons, if_neg h, ih]
      omega

theorem countOf_bumpKey_ne (freq : List (Char × Nat)) (c d : Char) (hdc : d ≠ c) :
    countOf (bumpKey freq c) d = countOf freq d := by
  induction freq with
  | nil => simp [bumpKey, countOf, List.filter_cons, hdc.symm]
  | cons p rest ih =>
    obtain ⟨k, v⟩ := p
    by_cases h : k = c
    · subst h
      simp only [bumpKey, eq_self_iff_true, if_true]
      rw [countOf_cons, countOf_cons, if_neg (Ne.symm hdc), if_neg (Ne.symm hdc)]
    · simp only [bumpKey, if_neg h]
      rw [countOf_cons, countOf_cons, ih]

theorem keys_bumpKey (freq : List (Char × Nat)) (c : Char) :
    (bumpKey freq c).map Prod.fst
      = if c ∈ freq.map Prod.fst then freq.map Prod.fst
        else freq.map Prod.fst ++ [c] := by
  induction freq with
  | nil => simp [bumpKey]
  | cons p rest ih =>
    obtain ⟨k, v⟩ := p
    by_cases h : k = c
    · subst h
      simp [bumpKey]
    · simp only [bumpKey, if_neg h, List.map_cons, ih]
      by_cases hmem : c ∈ rest.map Prod.fst
      · simp [hmem, Ne.symm h]
      · simp [hmem, Ne.symm h]

theorem sum_bumpKey (freq : List (Char × Nat)) (c : Char) :
    ((bumpKey freq c).map Prod.snd).sum = (freq.map Prod.snd).sum + 1 := by
  induction freq with
  | nil => simp [bumpKey]
  | cons p rest ih =>
    obtain ⟨k, v⟩ := p
    by_cases h : k = c
    · subst h
      simp [bumpKey]
      omega
    · simp only [bumpKey, if_neg h, List.map_cons, List.sum_cons, ih]
      omega

theorem pos_bumpKey (freq : List (Char × Nat)) (c : Char)
    (h : ∀ p ∈ freq, 0 < p.2) : ∀ p ∈ bumpKey freq c, 0 < p.2 := by
  induction freq with
  | nil =>
    intro p hp
    have hpc : p = (c, 1) := by simpa [bumpKey] using hp
    rw [hpc]
    exact Nat.one_pos
  | cons q rest ih =>
    obtain ⟨k, v⟩ := q
    intro p hp
    by_cases hk : k = c
    · rw [bumpKey, if_pos hk] at hp
      rcases List.mem_cons.mp hp with heq | hp
      · rw [heq]; exact Nat.succ_pos v
      · exact h p (List.mem_cons_of_mem _ hp)
    · rw [bumpKey, if_neg hk] at hp
      rcases List.mem_cons.mp hp with heq | hp
      · rw [heq]; exact h (k, v) (List.mem_cons_self _ _)
      · exact ih (fun q hq => h q (List.mem_cons_of_mem _ hq)) p hp

theorem countOf_foldl (text : List Char) :
    ∀ (A : List (Char × Nat)) (c : Char),
      countOf (text.foldl countStep A) c = countOf A c + alnumCount text c := by
  induction text with
  | nil => intro A c; simp [alnumCount]
  | cons ch cs ih =>
    intro A c
    rw [List.foldl_cons, ih]
    unfold countStep alnumCount
    by_cases ha : ch.isAlphanum
    · rw [if_pos ha]
      by_cases hc : ch = c
      · subst hc
        rw [countOf_bumpKey_same]
        simp only [alnumCount, List.filter_cons, ha, if_true, List.count_cons,
          beq_self_eq_true, eq_self_iff_true]
        omega
      · rw [countOf_bumpKey_ne _ _ _ (Ne.symm hc)]
        simp only [alnumCount, List.filter_cons, ha, if_true, List.count_cons,
          beq_iff_eq, hc, if_false, eq_self_iff_true]
        omega
    · rw [if_neg ha]
      simp [alnumCount, List.filter_cons, ha]

theorem sum_foldl (text : List Char) :
    ∀ A : List (Char × Nat),
      ((text.foldl countStep A).map Prod.snd).sum
        = (A.map Prod.snd).sum + text.countP (fun c => c.isAlphanum) := by
  induction text with
  | nil => intro A; simp
  | cons ch cs ih =>
    intro A
    rw [List.foldl_cons, ih]
    unfold countStep
    by_cases ha : ch.isAlphanum
    · rw [if_pos ha, sum_bumpKey, List.countP_cons]
      simp [ha]
      omega
    · rw [if_neg ha, List.countP_cons]
      simp [ha]

theorem pos_foldl (text : List Char) :
    ∀ A : List (Char × Nat), (∀ p ∈ A, 0 < p.2) →
      ∀ p ∈ text.foldl countStep A, 0 < p.2 := by
  induction text with
  | nil => intro A h; simpa using h
  | cons ch cs ih =>
    intro A h
    rw [List.foldl_cons]
    refine ih _ ?_
    unfold countStep
    by_cases ha : ch.isAlphanum
    · rw [if_pos ha]; exact pos_bumpKey A ch h
    · rw [if_neg ha]; exact h

/-! ## Lemmas about first-occurrence key order -/

theorem firstOccsExcept_append_singleton (c : Char) :
    ∀ (cs ex : List Char),
      firstOccsExcept (ex ++ [c]) cs = (firstOccsExcept ex cs).filter (fun d => d ≠ c) := by
  intro cs
  induction cs with
  | nil => intro ex; simp [firstOccsExcept]
  | cons a as ih =>
    intro ex
    by_cases ha : a.isAlphanum
    · by_cases haex : a ∈ ex
      · rw [firstOccsExcept, if_neg (by simp [haex]), firstOccsExcept, if_neg (by simp [haex]),
          ih]
      · by_cases hac : a = c
        · subst hac
          rw [firstOccsExcept, if_neg (by simp), ih, firstOccsExcept, if_pos ⟨ha, haex⟩,
            List.filter_cons]
          simp [List.filter_filter]
        · rw [firstOccsExcept, if_pos ⟨ha, by simp [haex, hac]⟩, ih, firstOccsExcept,
            if_pos ⟨ha, haex⟩, List.filter_cons, if_pos (by simp [hac]),
            List.filter_filter, List.filter_filter]
          have hcomm : (fun x : Char => decide (x ≠ a) && decide (x ≠ c))
              = (fun x : Char => decide (x ≠ c) && decide (x ≠ a)) := by
            funext x
            exact Bool.and_comm _ _
          rw [hcomm]
    · rw [firstOccsExcept, if_neg (by simp [ha]), firstOccsExcept, if_neg (by simp [ha]), ih]

theorem mem_firstOccsExcept (d : Char) :
    ∀ (text ex : List Char),
      d ∈ firstOccsExcept ex text ↔ (d.isAlphanum ∧ d ∉ ex ∧ d ∈ text) := by
  intro text
  induction text with
  | nil => intro ex; simp [firstOccsExcept]
  | cons a as ih =>
    intro ex
    by_cases hc : a.isAlphanum ∧ a ∉ ex
    · rw [firstOccsExcept, if_pos hc]
      constructor
      · intro h
        rcases List.mem_cons.mp h with rfl | h
        · exact ⟨hc.1, hc.2, List.mem_cons_self _ _⟩
        · have h' := List.mem_filter.mp h
          have h'' := (ih ex).mp h'.1
          exact ⟨h''.1, h''.2.1, List.mem_cons_of_mem _ h''.2.2⟩
      · rintro ⟨hal, hex, hmem⟩
        by_cases hda : d = a
        · subst hda; exact List.mem_cons_self _ _
        · rcases List.mem_cons.mp hmem with heq | hmem
          · exact absurd heq hda
          · refine List.mem_cons_of_mem _
              (List.mem_filter.mpr ⟨(ih ex).mpr ⟨hal, hex, hmem⟩, ?_⟩)
            simp [hda]
    · rw [firstOccsExcept, if_neg hc, ih ex]
      constructor
      · rintro ⟨hal, hex, hmem⟩
        exact ⟨hal, hex, List.mem_cons_of_mem _ hmem⟩
      · rintro ⟨hal, hex, hmem⟩
        rcases List.mem_cons.mp hmem with rfl | hmem
        · exact absurd ⟨hal, hex⟩ hc
        · exact ⟨hal, hex, hmem⟩

theorem nodup_firstOccsExcept : ∀ (text ex : List Char), (firstOccsExcept ex text).Nodup := by
  intro text
  induction text with
  | nil => intro ex; simp [firstOccsExcept]
  | cons a as ih =>
    intro ex
    by_cases hc : a.isAlphanum ∧ a ∉ ex
    · rw [firstOccsExcept, if_pos hc]
      refine List.nodup_cons.mpr ⟨?_, List.Nodup.filter _ (ih ex)⟩
      intro hmem
      have h' := List.mem_filter.mp hmem
      simp at h'
    · rw [firstOccsExcept, if_neg hc]
      exact ih ex

theorem firstIndex_cons_self (a : Char) (l : List Char) : firstIndex (a :: l) a = 0 := by
  simp [firstIndex, List.findIdx_cons]

theorem firstIndex_cons_ne (a d : Char) (l : List Char) (h : d ≠ a) :
    firstIndex (a :: l) d = firstIndex l d + 1 := by
  simp [firstIndex, List.findIdx_cons, Ne.symm h]

theorem pairwise_firstIndex_firstOccsExcept :
    ∀ (text ex : List Char),
      (firstOccsExcept ex text).Pairwise
        (fun a b => firstIndex text a < firstIndex text b) := by
  intro text
  induction text with
  | nil => intro ex; simp [firstOccsExcept]
  | cons ch cs ih =>
    intro ex
    by_cases hc : ch.isAlphanum ∧ ch ∉ ex
    · rw [firstOccsExcept, if_pos hc]
      refine List.Pairwise.cons ?_ ?_
      · intro b hb
        have hbne : b ≠ ch := by simpa using (List.mem_filter.mp hb).2
        rw [firstIndex_cons_self, firstIndex_cons_ne _ _ _ hbne]
        exact Nat.succ_pos _
      · have hfil : ((firstOccsExcept ex cs).filter (fun d => d ≠ ch)).Pairwise
            (fun a b => firstIndex cs a < firstIndex cs b) := (ih ex).filter _
        refine hfil.imp_of_mem ?_
        intro a b ha hb hlt
        have hane : a ≠ ch := by simpa using (List.mem_filter.mp ha).2
        have hbne : b ≠ ch := by simpa using (List.mem_filter.mp hb).2
        rw [firstIndex_cons_ne _ _ _ hane, firstIndex_cons_ne _ _ _ hbne]
        omega
    · rw [firstOccsExcept, if_neg hc]
      have key : ∀ x, x ∈ firstOccsExcept ex cs → x ≠ ch := by
        intro x hx hxe
        subst hxe
        have h' := (mem_firstOccsExcept x cs ex).mp hx
        exact hc ⟨h'.1, h'.2.1⟩
      refine (ih ex).imp_of_mem ?_
      intro a b ha hb hlt
      rw [firstIndex_cons_ne _ _ _ (key a ha), firstIndex_cons_ne _ _ _ (key b hb)]
      omega

theorem keys_foldl (text : List Char) :
    ∀ A : List (Char × Nat),
      (text.foldl countStep A).map Prod.fst
        = A.map Prod.fst ++ firstOccsExcept (A.map Prod.fst) text := by
  induction text with
  | nil => intro A; simp [firstOccsExcept]
  | cons ch cs ih =>
    intro A
    rw [List.foldl_cons, ih]
    unfold countStep
    by_cases ha : ch.isAlphanum
    · rw [if_pos ha, keys_bumpKey]
      by_cases hmem : ch ∈ A.map Prod.fst
      · rw [if_pos hmem, firstOccsExcept, if_neg (by simp [hmem])]
      · rw [if_neg hmem, firstOccsExcept, if_pos ⟨ha, hmem⟩,
          firstOccsExcept_append_singleton]
        simp [List.append_assoc]
    · rw [if_neg ha, firstOccsExcept, if_neg (by simp [ha])]

/-! ## Characterization of `buildFrequency` -/

theorem countOf_eq_zero_of_not_mem (freq : List (Char × Nat)) (c : Char)
    (h : c ∉ freq.map Prod.fst) : countOf freq c = 0 := by
  induction freq with
  | nil => rfl
  | cons p rest ih =>
    obtain ⟨k, v⟩ := p
    simp only [List.map_cons, List.mem_cons, not_or] at h
    rw [countOf_cons, if_neg (fun hkc => h.1 hkc.symm), ih h.2]

theorem countOf_of_mem_nodup (freq : List (Char × Nat)) (c : Char) (n : Nat)
    (hnd : (freq.map Prod.fst).Nodup) (hmem : (c, n) ∈ freq) : countOf freq c = n := by
  induction freq with
  | nil => simp at hmem
  | cons p rest ih =>
    obtain ⟨k, v⟩ := p
    simp only [List.map_cons] at hnd
    have hhead := (List.nodup_cons.mp hnd).1
    have htail := (List.nodup_cons.mp hnd).2
    rw [countOf_cons]
    rcases List.mem_cons.mp hmem with heq | hmem'
    · injection heq with h1 h2
      subst h1
      subst h2
      rw [if_pos rfl, countOf_eq_zero_of_not_mem rest c hhead]
      omega
    · have hkc : k ≠ c := by
        intro hk
        subst hk
        exact hhead (List.mem_map.mpr ⟨(k, n), hmem', rfl⟩)
      rw [if_neg hkc, ih htail hmem']
      omega

theorem keys_buildFrequency (text : List Char) :
    (buildFrequency text).map Prod.fst = firstOccsExcept [] text := by
  unfold buildFrequency
  rw [keys_foldl]
  rfl

theorem nodup_keys_buildFrequency (text : List Char) :
    ((buildFrequency text).map Prod.fst).Nodup := by
  rw [keys_buildFrequency]
  exact nodup_firstOccsExcept text []

theorem mem_keys_buildFrequency (text : List Char) (c : Char) :
    c ∈ (buildFrequency text).map Prod.fst ↔ (c.isAlphanum ∧ c ∈ text) := by
  rw [keys_buildFrequency, mem_firstOccsExcept]
  simp

theorem countOf_buildFrequency (text : List Char) (c : Char) :
    countOf (buildFrequency text) c = alnumCount text c := by
  unfold buildFrequency
  rw [countOf_foldl]
  simp [countOf]

theorem pairwise_firstIndex_keys_buildFrequency (text : List Char) :
    ((buildFrequency text).map Prod.fst).Pairwise
      (fun a b => firstIndex text a < firstIndex text b) := by
  rw [keys_buildFrequency]
  exact pairwise_firstIndex_firstOccsExcept text []

/-! ## The stable ascending sort and its stability -/

theorem insertByCount_perm (x : Char × Nat) (l : List (Char × Nat)) :
    (insertByCount x l).Perm (x :: l) := by
  induction l with
  | nil => exact List.Perm.refl _
  | cons y ys ih =>
    by_cases h : countLE x y
    · rw [insertByCount, if_pos h]
    · rw [insertByCount, if_neg h]
      exact (ih.cons y).trans (List.Perm.swap x y ys)

theorem sortByCount_perm (l : List (Char × Nat)) : (sortByCount l).Perm l := by
  induction l with
  | nil => exact List.Perm.refl _
  | cons x xs ih => exact (insertByCount_perm x (sortByCount xs)).trans (ih.cons x)

theorem pairwise_insertByCount (x : Char × Nat) (l : List (Char × Nat))
    (h : l.Pairwise (fun a b => a.2 ≤ b.2)) :
    (insertByCount x l).Pairwise (fun a b => a.2 ≤ b.2) := by
  induction l with
  | nil => simp [insertByCount]
  | cons y ys ih =>
    by_cases hle : countLE x y
    · rw [insertByCount, if_pos hle]
      refine List.Pairwise.cons ?_ h
      intro b hb
      have hxy : x.2 ≤ y.2 := of_decide_eq_true hle
      rcases List.mem_cons.mp hb with rfl | hb
      · exact hxy
      · exact Nat.le_trans hxy (List.rel_of_pairwise_cons h hb)
    · rw [insertByCount, if_neg hle]
      have hyx : y.2 ≤ x.2 :=
        Nat.le_of_lt (Nat.lt_of_not_le (fun hxle => hle (decide_eq_true hxle)))
      refine List.Pairwise.cons ?_ (ih (List.Pairwise.of_cons h))
      intro b hb
      have hmem := (insertByCount_perm x ys).mem_iff.mp hb
      rcases List.mem_cons.mp hmem with rfl | hb'
      · exact hyx
      · exact List.rel_of_pairwise_cons h hb'

theorem pairwise_sortByCount (l : List (Char × Nat)) :
    (sortByCount l).Pairwise (fun a b => a.2 ≤ b.2) := by
  induction l with
  | nil => simp [sortByCount]
  | cons x xs ih => exact pairwise_insertByCount x _ ih

theorem sublist_insertByCount (x : Char × Nat) (l : List (Char × Nat)) :
    l.Sublist (insertByCount x l) := by
  induction l with
  | nil => simp [insertByCount]
  | cons y ys ih =>
    by_cases hle : countLE x y
    · rw [insertByCount, if_pos hle]
      exact List.Sublist.cons x (List.Sublist.refl _)
    · rw [insertByCount, if_neg hle]
      exact ih.cons₂ y

theorem pair_sublist_insertByCount (a b : Char × Nat) (l : List (Char × Nat))
    (hmem : b ∈ l) (hab : a.2 ≤ b.2) :
    [a, b].Sublist (insertByCount a l) := by
  induction l with
  | nil => simp at hmem
  | cons y ys ih =>
    by_cases hle : countLE a y
    · rw [insertByCount, if_pos hle]
      exact (List.singleton_sublist.mpr hmem).cons₂ a
    · rw [insertByCount, if_neg hle]
      have hya : y.2 < a.2 := Nat.lt_of_not_le (fun hxle => hle (decide_eq_true hxle))
      rcases List.mem_cons.mp hmem with rfl | hb
      · omega
      · exact (ih hb).cons y

theorem pair_sublist_sortByCount (a b : Char × Nat) (l : List (Char × Nat))
    (h : [a, b].Sublist l) (hab : a.2 ≤ b.2) :
    [a, b].Sublist (sortByCount l) := by
  induction l with
  | nil => simp at h
  | cons x xs ih =>
    cases h with
    | cons _ h' =>
      exact (ih h').trans (sublist_insertByCount x (sortByCount xs))
    | cons₂ _ h' =>
      exact pair_sublist_insertByCount a b (sortByCount xs)
        ((sortByCount_perm xs).mem_iff.mpr (List.singleton_sublist.mp h')) hab

theorem pair_sublist_of_mem {α : Type} {a b : α} {l : List α}
    (ha : a ∈ l) (hb : b ∈ l) (hne : a ≠ b) :
    [a, b].Sublist l ∨ [b, a].Sublist l := by
  induction l with
  | nil => simp at ha
  | cons x xs ih =>
    rcases List.mem_cons.mp ha with rfl | ha'
    · have hb' : b ∈ xs := by
        rcases List.mem_cons.mp hb with rfl | h
        · exact absurd rfl hne
        · exact h
      exact Or.inl ((List.singleton_sublist.mpr hb').cons₂ a)
    · rcases List.mem_cons.mp hb with rfl | hb'
      · exact Or.inr ((List.singleton_sublist.mpr ha').cons₂ b)
      · rcases ih ha' hb' with h | h
        · exact Or.inl (h.cons x)
        · exact Or.inr (h.cons x)

theorem pair_sublist_antisymm {α : Type} {a b : α} :
    ∀ {l : List α}, l.Nodup → [a, b].Sublist l → [b, a].Sublist l → a = b := by
  intro l
  induction l with
  | nil => intro _ h; simp at h
  | cons x xs ih =>
    intro hnd h1 h2
    have hx := (List.nodup_cons.mp hnd).1
    have hxs := (List.nodup_cons.mp hnd).2
    cases h1 with
    | cons _ h1' =>
      cases h2 with
      | cons _ h2' => exact ih hxs h1' h2'
      | cons₂ _ h2' =>
        have hbxs : b ∈ xs := (List.Sublist.subset h1') (by simp)
        exact absurd hbxs hx
    | cons₂ _ h1' =>
      cases h2 with
      | cons _ h2' =>
        have haxs : a ∈ xs := (List.Sublist.subset h2') (by simp)
        exact absurd haxs hx
      | cons₂ _ h2' => rfl

theorem table_perm_buildFrequency (text : String) :
    (generate_character_frequency text).Perm (buildFrequency text.toList) :=
  (List.reverse_perm _).trans (sortByCount_perm _)

/-! ## Claim theorems: the frequency analyzer -/

/-- Counterexample for C4: at `"aAbb1"` the code yields the equal-count
characters in the order `1, A, a` (reverse of first occurrence), not the
claimed first-occurrence order `a, A, 1`. -/
theorem analyze_tie_order_counterexample :
    generate_character_frequency "aAbb1"
      = [('b', 2), ('1', 1), ('A', 1), ('a', 1)]
    ∧ generate_character_frequency "aAbb1"
      ≠ [('b', 2), ('a', 1), ('A', 1), ('1', 1)] := by
  constructor
  · decide
  · decide

/-- C4 (amended): `analyze` counts exactly the alphanumeric characters of the
input (case-sensitive, everything else excluded; each distinct counted
character appears once, with its exact occurrence count) and returns them
sorted by count descending; and whenever the table has fewer than 16 distinct
counted characters — the regime in which numpy's default argsort is insertion
sort, hence stable, so the model's tie order is faithful to the program —
characters of equal count are ordered by the REVERSE of their first occurrence
in the input (pandas `sort_values(ascending=False)` reverses the ascending
argsort), not by first occurrence.  For larger tables no tie order is claimed:
numpy's quicksort partitioning is unstable there.  The size hypothesis scopes
the claim to where the model is faithful; the model itself satisfies the
conclusion at every size. -/
theorem analyze_counts_sorted_ties_reverse_first_occurrence (text : String) :
    (∀ p ∈ generate_character_frequency text,
        p.1.isAlphanum ∧ p.1 ∈ text.toList ∧ p.2 = alnumCount text.toList p.1)
    ∧ (∀ c, c.isAlphanum → c ∈ text.toList →
        ∃ n, (c, n) ∈ generate_character_frequency text)
    ∧ ((generate_character_frequency text).map Prod.fst).Nodup
    ∧ (generate_character_frequency text).Pairwise (fun x y => y.2 ≤ x.2)
    ∧ ((generate_character_frequency text).length < 16 →
        (generate_character_frequency text).Pairwise
          (fun x y => x.2 = y.2 →
            firstIndex text.toList y.1 < firstIndex text.toList x.1)) := by
  have hperm := table_perm_buildFrequency text
  have hnodupkeys := nodup_keys_buildFrequency text.toList
  have hnodup_l : (buildFrequency text.toList).Nodup := List.Nodup.of_map _ hnodupkeys
  have hnodup_sort : (sortByCount (buildFrequency text.toList)).Nodup :=
    ((sortByCount_perm _).nodup_iff).mpr hnodup_l
  have hrev : ∀ x y : Char × Nat,
      [x, y].Sublist (generate_character_frequency text) →
      [y, x].Sublist (sortByCount (buildFrequency text.toList)) := by
    intro x y hsub
    have h2 := List.Sublist.reverse hsub
    rw [generate_character_frequency, List.reverse_reverse] at h2
    exact h2
  refine ⟨?_, ?_, ?_, ?_, ?_⟩
  · intro p hp
    have hpl : p ∈ buildFrequency text.toList := hperm.mem_iff.mp hp
    have hkey : p.1 ∈ (buildFrequency text.toList).map Prod.fst :=
      List.mem_map.mpr ⟨p, hpl, rfl⟩
    have hkey' := (mem_keys_buildFrequency text.toList p.1).mp hkey
    refine ⟨hkey'.1, hkey'.2, ?_⟩
    have hco := countOf_of_mem_nodup _ p.1 p.2 hnodupkeys (by simpa using hpl)
    rw [countOf_buildFrequency] at hco
    exact hco.symm
  · intro c hal hmem
    have hkey : c ∈ (buildFrequency text.toList).map Prod.fst :=
      (mem_keys_buildFrequency text.toList c).mpr ⟨hal, hmem⟩
    obtain ⟨p, hp, hpc⟩ := List.mem_map.mp hkey
    refine ⟨p.2, hperm.mem_iff.mpr ?_⟩
    rw [← hpc]
    simpa using hp
  · exact ((hperm.map Prod.fst).nodup_iff).mpr hnodupkeys
  · rw [List.pairwise_iff_forall_sublist]
    intro x y hsub
    exact List.pairwise_iff_forall_sublist.mp (pairwise_sortByCount _) (hrev x y hsub)
  · intro _hlen
    rw [List.pairwise_iff_forall_sublist]
    intro x y hsub heq
    have hsub' := hrev x y hsub
    have hne_yx : y ≠ x := List.pairwise_iff_forall_sublist.mp hnodup_sort hsub'
    have hxm : x ∈ buildFrequency text.toList :=
      (sortByCount_perm _).mem_iff.mp (hsub'.subset (by simp))
    have hym : y ∈ buildFrequency text.toList :=
      (sortByCount_perm _).mem_iff.mp (hsub'.subset (by simp))
    rcases pair_sublist_of_mem hxm hym (Ne.symm hne_yx) with hxy_l | hyx_l
    · have hst : [x, y].Sublist (sortByCount (buildFrequency text.toList)) :=
        pair_sublist_sortByCount x y _ hxy_l (Nat.le_of_eq heq)
      exact absurd (pair_sublist_antisymm hnodup_sort hst hsub') (Ne.symm hne_yx)
    · have hpw : (buildFrequency text.toList).Pairwise
          (fun a b => firstIndex text.toList a.1 < firstIndex text.toList b.1) := by
        have hpk := pairwise_firstIndex_keys_buildFrequency text.toList
        rw [List.pairwise_map] at hpk
        exact hpk
      exact List.pairwise_iff_forall_sublist.mp hpw hyx_l

/-- Witness for C4 (amended) at the spec's own example `"aAbb1"`, whose table
has 4 rows, discharging the under-16-rows hypothesis of the tie-order part. -/
theorem analyze_counts_sorted_ties_reverse_first_occurrence_witness :
    (∀ p ∈ generate_character_frequency "aAbb1",
        p.1.isAlphanum ∧ p.1 ∈ String.toList "aAbb1"
          ∧ p.2 = alnumCount (String.toList "aAbb1") p.1)
    ∧ (∀ c, c.isAlphanum → c ∈ String.toList "aAbb1" →
        ∃ n, (c, n) ∈ generate_character_frequency "aAbb1")
    ∧ ((generate_character_frequency "aAbb1").map Prod.fst).Nodup
    ∧ (generate_character_frequency "aAbb1").Pairwise (fun x y => y.2 ≤ x.2)
    ∧ (generate_character_frequency "aAbb1").length < 16
    ∧ (generate_character_frequency "aAbb1").Pairwise
        (fun x y => x.2 = y.2 →
          firstIndex (String.toList "aAbb1") y.1 < firstIndex (String.toList "aAbb1") x.1) :=
  have h := analyze_counts_sorted_ties_reverse_first_occurrence "aAbb1"
  ⟨h.1, h.2.1, h.2.2.1, h.2.2.2.1, by decide, h.2.2.2.2 (by decide)⟩

/-- C10: the frequency table has each distinct alphanumeric character of the
text exactly once as a key, every count positive, total count equal to the
number of alphanumeric characters of the text, and is empty when the text has
no alphanumeric characters. -/
theorem frequency_table_invariants (text : String) :
    ((generate_character_frequency text).map Prod.fst).Nodup
    ∧ (∀ c, c ∈ (generate_character_frequency text).map Prod.fst
        ↔ (c.isAlphanum ∧ c ∈ text.toList))
    ∧ (∀ p ∈ generate_character_frequency text, 0 < p.2)
    ∧ ((generate_character_frequency text).map Prod.snd).sum
        = text.toList.countP (fun c => c.isAlphanum)
    ∧ ((∀ c ∈ text.toList, ¬ c.isAlphanum) → generate_character_frequency text = []) := by
  have hperm := table_perm_buildFrequency text
  refine ⟨((hperm.map Prod.fst).nodup_iff).mpr (nodup_keys_buildFrequency _), ?_, ?_, ?_, ?_⟩
  · intro c
    rw [(hperm.map Prod.fst).mem_iff, mem_keys_buildFrequency]
  · intro p hp
    exact pos_foldl text.toList [] (by simp) p (hperm.mem_iff.mp hp)
  · rw [(hperm.map Prod.snd).sum_eq]
    have hsum := sum_foldl text.toList []
    simpa using hsum
  · intro hnone
    have hkeys : (buildFrequency text.toList).map Prod.fst = [] := by
      rw [List.eq_nil_iff_forall_not_mem]
      intro c hc
      have h' := (mem_keys_buildFrequency text.toList c).mp hc
      exact hnone c h'.2 h'.1
    have hnil : buildFrequency text.toList = [] := List.map_eq_nil_iff.mp hkeys
    unfold generate_character_frequency
    rw [hnil]
    rfl

/-- Witness for C10 at a text mixing letters, digits, whitespace and
punctuation. -/
theorem frequency_table_invariants_witness :
    ((generate_character_frequency "ab, ab1!").map Prod.fst).Nodup
    ∧ (∀ c, c ∈ (generate_character_frequency "ab, ab1!").map Prod.fst
        ↔ (c.isAlphanum ∧ c ∈ String.toList "ab, ab1!"))
    ∧ (∀ p ∈ generate_character_frequency "ab, ab1!", 0 < p.2)
    ∧ ((generate_character_frequency "ab, ab1!").map Prod.snd).sum
        = (String.toList "ab, ab1!").countP (fun c => c.isAlphanum)
    ∧ ((∀ c ∈ String.toList "ab, ab1!", ¬ c.isAlphanum) →
        generate_character_frequency "ab, ab1!" = []) :=
  frequency_table_invariants "ab, ab1!"

end HandwrittenNotes
